import Mathlib

/-!
Verification of the secure-pdf plugin core (path resolver, nonce store,
document cache, XOR obfuscation codec, serving gateway) against its
specification.  Each JavaScript function of `src/lib` is embedded as a
pure Lean function; stateful operations pass their state explicitly.
-/

set_option autoImplicit false

namespace SecurePdf

/-! ## Byte obfuscation codec (`partialXorEncode`, src/lib/controllers.js)

Buffers are lists of byte values (`Nat`, byte-sized in intended use).
A JavaScript `Buffer` write truncates to one byte, so writing stores
`(value) % 256`.  The two `for` loops are rendered as a left fold over
the list of indices each loop visits: `List.range (min 10240 len)` for
the full pass and `fullLen, fullLen+50, fullLen+100, ...` (while below
`len`) for the stride pass. -/

/-- One JS `Buffer` byte store: `data[i] = v` keeps the low 8 bits. -/
def byteXor (a b : Nat) : Nat := (a ^^^ b) % 256

/-- One loop iteration `data[i] = data[i] ^ xorKey[i % keyLen]`. -/
def xorStep (key : List Nat) (data : List Nat) (i : Nat) : List Nat :=
  data.set i (byteXor (data.getD i 0) (key.getD (i % key.length) 0))

/-- Indices of the first loop: `0 ≤ i < Math.min(10240, data.length)`. -/
def fullIdxList (len : Nat) : List Nat :=
  List.range (min 10240 len)

/-- Indices of the second loop: `i = fullEncryptLen; i < len; i += 50`. -/
def strideIdxList (len : Nat) : List Nat :=
  let fullLen := min 10240 len
  (List.range ((len - fullLen + 49) / 50)).map (fun k => fullLen + 50 * k)

/-- All indices touched by `partialXorEncode`, in program order. -/
def encodeIdxList (len : Nat) : List Nat :=
  fullIdxList len ++ strideIdxList len

/-- `partialXorEncode(buffer, xorKey)` from src/lib/controllers.js:
copies the buffer (`Buffer.from`), XORs the first 10 KiB fully, then
every 50th byte after that, with the key repeated cyclically. -/
def partialXorEncode (buffer xorKey : List Nat) : List Nat :=
  (encodeIdxList buffer.length).foldl (xorStep xorKey) buffer

/-! ### Codec lemmas -/

theorem getD_set_ne {α : Type} (l : List α) (i j : Nat) (v d : α) (h : i ≠ j) :
    (l.set i v).getD j d = l.getD j d := by
  simp [List.getD_eq_getElem?_getD, List.getElem?_set_ne h]

theorem getD_set_self {α : Type} (l : List α) (i : Nat) (v d : α) (h : i < l.length) :
    (l.set i v).getD i d = v := by
  simp [List.getD_eq_getElem?_getD, List.getElem?_set_self, h]

theorem length_xorStep (key data : List Nat) (i : Nat) :
    (xorStep key data i).length = data.length := by
  simp [xorStep]

theorem length_foldl_xorStep (key : List Nat) (idxs : List Nat) (data : List Nat) :
    (idxs.foldl (xorStep key) data).length = data.length := by
  induction idxs generalizing data with
  | nil => rfl
  | cons i rest ih => simp [List.foldl_cons, ih, length_xorStep]

theorem getD_foldl_xorStep_not_mem (key : List Nat) (idxs : List Nat) (data : List Nat)
    (j : Nat) (hj : j ∉ idxs) :
    (idxs.foldl (xorStep key) data).getD j 0 = data.getD j 0 := by
  induction idxs generalizing data with
  | nil => rfl
  | cons i rest ih =>
      have hij : i ≠ j := fun h => hj (h ▸ List.mem_cons_self i rest)
      have hrest : j ∉ rest := fun h => hj (List.mem_cons_of_mem i h)
      simp only [List.foldl_cons]
      rw [ih _ hrest, xorStep, getD_set_ne _ _ _ _ _ hij]

theorem getD_foldl_xorStep_mem (key : List Nat) (idxs : List Nat) (data : List Nat)
    (j : Nat) (hnd : idxs.Nodup) (hj : j ∈ idxs) (hlen : j < data.length) :
    (idxs.foldl (xorStep key) data).getD j 0 =
      byteXor (data.getD j 0) (key.getD (j % key.length) 0) := by
  induction idxs generalizing data with
  | nil => cases hj
  | cons i rest ih =>
      rcases List.mem_cons.mp hj with hji | hjr
      · subst hji
        have hrest : j ∉ rest := (List.nodup_cons.mp hnd).1
        simp only [List.foldl_cons]
        rw [getD_foldl_xorStep_not_mem _ _ _ _ hrest, xorStep,
          getD_set_self _ _ _ _ hlen]
      · have hij : i ≠ j := by
          intro h
          exact (List.nodup_cons.mp hnd).1 (h ▸ hjr)
        simp only [List.foldl_cons]
        rw [ih _ (List.nodup_cons.mp hnd).2 hjr (by simp [length_xorStep, hlen]),
          xorStep, getD_set_ne _ _ _ _ _ hij]

theorem mem_fullIdxList (len i : Nat) : i ∈ fullIdxList len ↔ i < min 10240 len := by
  simp [fullIdxList]

theorem mem_strideIdxList (len i : Nat) :
    i ∈ strideIdxList len ↔
      min 10240 len ≤ i ∧ i < len ∧ (i - min 10240 len) % 50 = 0 := by
  simp only [strideIdxList, List.mem_map, List.mem_range]
  constructor
  · rintro ⟨k, hk, rfl⟩
    omega
  · rintro ⟨h1, h2, h3⟩
    exact ⟨(i - min 10240 len) / 50, by omega, by omega⟩

theorem nodup_encodeIdxList (len : Nat) : (encodeIdxList len).Nodup := by
  refine List.Nodup.append ?_ ?_ ?_
  · exact List.nodup_range _
  · refine List.Nodup.map ?_ (List.nodup_range _)
    intro a b h
    simp only at h
    omega
  · intro i hif his
    have h1 := (mem_fullIdxList len i).mp hif
    have h2 := (mem_strideIdxList len i).mp his
    omega

theorem mem_encodeIdxList (len i : Nat) :
    i ∈ encodeIdxList len ↔
      i < min 10240 len ∨
        (min 10240 len ≤ i ∧ i < len ∧ (i - min 10240 len) % 50 = 0) := by
  simp [encodeIdxList, List.mem_append, mem_fullIdxList, mem_strideIdxList]

theorem length_partialXorEncode (buffer key : List Nat) :
    (partialXorEncode buffer key).length = buffer.length :=
  length_foldl_xorStep _ _ _

theorem getD_partialXorEncode (buffer key : List Nat) (i : Nat) :
    (partialXorEncode buffer key).getD i 0 =
      if i ∈ encodeIdxList buffer.length then
        byteXor (buffer.getD i 0) (key.getD (i % key.length) 0)
      else buffer.getD i 0 := by
  by_cases h : i ∈ encodeIdxList buffer.length
  · have hlen : i < buffer.length := by
      have := (mem_encodeIdxList buffer.length i).mp h
      omega
    simp only [h, if_true]
    exact getD_foldl_xorStep_mem _ _ _ _ (nodup_encodeIdxList _) h hlen
  · simp only [h, if_false]
    exact getD_foldl_xorStep_not_mem _ _ _ _ h

theorem byteXor_lt_256 (a b : Nat) : byteXor a b < 256 :=
  Nat.mod_lt _ (by norm_num)

theorem byteXor_eq_xor (a b : Nat) (ha : a < 256) (hb : b < 256) :
    byteXor a b = a ^^^ b := by
  have h : a ^^^ b < 256 := by
    have := Nat.xor_lt_two_pow (n := 8) ha hb
    simpa using this
  simp [byteXor, Nat.mod_eq_of_lt h]

theorem byteXor_byteXor (a b : Nat) (ha : a < 256) (hb : b < 256) :
    byteXor (byteXor a b) b = a := by
  rw [byteXor_eq_xor _ _ ha hb, byteXor_eq_xor _ _ (by
    have := Nat.xor_lt_two_pow (n := 8) ha hb
    simpa using this) hb, Nat.xor_assoc, Nat.xor_self, Nat.xor_zero]

theorem getD_lt_256 (l : List Nat) (h : ∀ b ∈ l, b < 256) (i : Nat) :
    l.getD i 0 < 256 := by
  by_cases hi : i < l.length
  · rw [List.getD_eq_getElem l 0 hi]
    exact h _ (List.getElem_mem hi)
  · rw [List.getD_eq_default l 0 (by omega)]
    norm_num

theorem encode_cond (len i : Nat) :
    i ∈ encodeIdxList len ↔
      i < min 10240 len ∨ (10240 ≤ i ∧ i < len ∧ (i - 10240) % 50 = 0) := by
  rw [mem_encodeIdxList]
  omega

/-- **C6.** The codec output at offset `i` is `input[i] XOR key[i mod |key|]`
for `i < min(10 KiB, |buffer|)`; past 10 KiB only offsets `10240 + 50k`
are XORed (key index from the absolute offset); all other bytes are
unchanged. -/
theorem partialXorEncode_spec (buffer key : List Nat)
    (hb : ∀ b ∈ buffer, b < 256) (hk : ∀ b ∈ key, b < 256)
    (hkey : 0 < key.length) (i : Nat) :
    (partialXorEncode buffer key).getD i 0 =
      if i < min 10240 buffer.length then
        (buffer.getD i 0) ^^^ (key.getD (i % key.length) 0)
      else if 10240 ≤ i ∧ i < buffer.length ∧ (i - 10240) % 50 = 0 then
        (buffer.getD i 0) ^^^ (key.getD (i % key.length) 0)
      else buffer.getD i 0 := by
  rw [getD_partialXorEncode]
  by_cases h1 : i < min 10240 buffer.length
  · have hm : i ∈ encodeIdxList buffer.length :=
      (mem_encodeIdxList _ _).mpr (Or.inl h1)
    rw [if_pos hm, if_pos h1,
      byteXor_eq_xor _ _ (getD_lt_256 _ hb i) (getD_lt_256 _ hk _)]
  · by_cases h2 : 10240 ≤ i ∧ i < buffer.length ∧ (i - 10240) % 50 = 0
    · have hm : i ∈ encodeIdxList buffer.length := by
        rw [encode_cond]
        omega
      rw [if_pos hm, if_neg h1, if_pos h2,
        byteXor_eq_xor _ _ (getD_lt_256 _ hb i) (getD_lt_256 _ hk _)]
    · have hm : i ∉ encodeIdxList buffer.length := by
        rw [encode_cond]
        omega
      rw [if_neg hm, if_neg h1, if_neg h2]

/-- Witness for C6 at a concrete buffer, key and offset. -/
theorem partialXorEncode_spec_witness :
    (partialXorEncode [10, 20] [3]).getD 0 0 = 10 ^^^ 3 := by
  have h := partialXorEncode_spec [10, 20] [3] (by decide) (by decide) (by decide) 0
  simpa using h

/-- **C1.** Applying the codec twice with the same non-empty key and the
same coverage parameters restores the original buffer. -/
theorem partialXorEncode_involution (buffer key : List Nat)
    (hb : ∀ b ∈ buffer, b < 256) (hk : ∀ b ∈ key, b < 256)
    (hkey : 0 < key.length) :
    partialXorEncode (partialXorEncode buffer key) key = buffer := by
  have hlen1 : (partialXorEncode buffer key).length = buffer.length :=
    length_partialXorEncode _ _
  have hlen2 :
      (partialXorEncode (partialXorEncode buffer key) key).length = buffer.length := by
    rw [length_partialXorEncode, hlen1]
  refine List.ext_getElem hlen2 ?_
  intro i hi1 hi2
  have hd :
      (partialXorEncode (partialXorEncode buffer key) key).getD i 0 = buffer.getD i 0 := by
    rw [getD_partialXorEncode, getD_partialXorEncode, hlen1]
    by_cases hm : i ∈ encodeIdxList buffer.length
    · rw [if_pos hm, if_pos hm,
        byteXor_byteXor _ _ (getD_lt_256 _ hb i) (getD_lt_256 _ hk _)]
    · rw [if_neg hm, if_neg hm]
  rw [List.getD_eq_getElem _ 0 hi1, List.getD_eq_getElem _ 0 hi2] at hd
  exact hd

/-- Witness for C1 at a concrete buffer and key. -/
theorem partialXorEncode_involution_witness :
    partialXorEncode (partialXorEncode [1, 2, 3] [7]) [7] = [1, 2, 3] :=
  partialXorEncode_involution [1, 2, 3] [7] (by decide) (by decide) (by decide)

/-! ## Heap-level codec (aliasing model for `Buffer.from`)

`partialXorEncode` starts with `const data = Buffer.from(buffer)`, which
allocates a fresh buffer holding a copy of the caller's bytes; the loops
then write only through `data`.  To state that the caller's buffer (in
particular the shared cached single-page derivative) is never mutated,
buffers live in a heap (a list of byte lists) addressed by index. -/

/-- A heap of JS `Buffer`s; a reference is an index into the heap. -/
abbrev Heap := List (List Nat)

/-- Dereference a buffer. -/
def heapGet (h : Heap) (r : Nat) : List Nat := h.getD r []

/-- `buf[i] = v` through reference `r`. -/
def writeByte (h : Heap) (r i v : Nat) : Heap :=
  h.set r ((heapGet h r).set i v)

/-- One loop iteration of `partialXorEncode`, writing through `data`. -/
def encStep (key : List Nat) (data : Nat) (h : Heap) (i : Nat) : Heap :=
  writeByte h data i
    (byteXor ((heapGet h data).getD i 0) (key.getD (i % key.length) 0))

/-- `partialXorEncode` on the heap: `Buffer.from` allocates a fresh copy
at the end of the heap, both loops write only through that fresh
reference, and the fresh reference is returned. -/
def partialXorEncodeRef (h : Heap) (buf : Nat) (key : List Nat) : Heap × Nat :=
  let copied := heapGet h buf
  let data := h.length
  let h1 := h ++ [copied]
  ((encodeIdxList copied.length).foldl (encStep key data) h1, data)

theorem length_encStep (key : List Nat) (data : Nat) (h : Heap) (i : Nat) :
    (encStep key data h i).length = h.length := by
  simp [encStep, writeByte]

theorem length_foldl_encStep (key : List Nat) (data : Nat) (idxs : List Nat) (h : Heap) :
    (idxs.foldl (encStep key data) h).length = h.length := by
  induction idxs generalizing h with
  | nil => rfl
  | cons i rest ih => simp [List.foldl_cons, ih, length_encStep]

theorem heapGet_foldl_encStep_ne (key : List Nat) (data : Nat) (idxs : List Nat)
    (h : Heap) (r : Nat) (hr : r ≠ data) :
    heapGet (idxs.foldl (encStep key data) h) r = heapGet h r := by
  induction idxs generalizing h with
  | nil => rfl
  | cons i rest ih =>
      simp only [List.foldl_cons]
      rw [ih, encStep, writeByte, heapGet, getD_set_ne _ _ _ _ _ (Ne.symm hr)]
      rfl

theorem heapGet_foldl_encStep_self (key : List Nat) (data : Nat) (idxs : List Nat)
    (h : Heap) (hd : data < h.length) :
    heapGet (idxs.foldl (encStep key data) h) data =
      idxs.foldl (xorStep key) (heapGet h data) := by
  induction idxs generalizing h with
  | nil => rfl
  | cons i rest ih =>
      simp only [List.foldl_cons]
      rw [ih _ (by simp [length_encStep, hd])]
      congr 1
      rw [encStep, writeByte, heapGet, getD_set_self _ _ _ _ hd, xorStep]

/-- **C10.** The codec never mutates its input: every pre-existing buffer
in the heap (the caller's buffer, the cached derivative, ...) is
byte-identical after the call, the returned buffer is a fresh reference,
and its contents are the pure transform of the input. -/
theorem partialXorEncodeRef_no_mutation (h : Heap) (buf : Nat) (key : List Nat)
    (hbuf : buf < h.length) :
    (∀ r, r < h.length →
        heapGet (partialXorEncodeRef h buf key).1 r = heapGet h r) ∧
      heapGet (partialXorEncodeRef h buf key).1 (partialXorEncodeRef h buf key).2 =
        partialXorEncode (heapGet h buf) key ∧
      (partialXorEncodeRef h buf key).2 ≠ buf := by
  have hget1 : heapGet (h ++ [heapGet h buf]) h.length = heapGet h buf := by
    simp [heapGet, List.getD_eq_getElem?_getD]
  refine ⟨?_, ?_, ?_⟩
  · intro r hr
    have hrd : r ≠ h.length := by omega
    rw [partialXorEncodeRef]
    simp only
    rw [heapGet_foldl_encStep_ne _ _ _ _ _ hrd]
    simp [heapGet, List.getD_eq_getElem?_getD, List.getElem?_append_left hr]
  · rw [partialXorEncodeRef]
    simp only
    rw [heapGet_foldl_encStep_self _ _ _ _ (by simp), hget1, partialXorEncode]
  · rw [partialXorEncodeRef]
    simp only
    omega

/-- Witness for C10 at a concrete heap, buffer reference and key. -/
theorem partialXorEncodeRef_no_mutation_witness :
    heapGet (partialXorEncodeRef [[1, 2, 3]] 0 [5]).1 0 = [1, 2, 3] := by
  have h := (partialXorEncodeRef_no_mutation [[1, 2, 3]] 0 [5] (by decide)).1 0 (by decide)
  simpa using h

/-! ## Nonce store (src/lib/nonce-store.js)

`store` is a JS `Map` from nonce strings to records, embedded as an
association list; `Date.now()` is passed in as `now`.  The random
`uuidv4()` nonce and `crypto.randomBytes(8)` key are parameters of
`generate` (randomness is external input to the model). -/

/-- One stored nonce record (`store.set(nonce, {...})`). -/
structure NonceData where
  uid : Nat
  file : String
  isPremium : Bool
  xorKey : List Nat
  createdAt : Nat
deriving DecidableEq

/-- The nonce `Map`. -/
abbrev Store := List (String × NonceData)

def NONCE_TTL : Nat := 30 * 1000

def storeGet (s : Store) (k : String) : Option NonceData :=
  (s.find? (fun e => e.1 == k)).map (fun e => e.2)

def storeDelete (s : Store) (k : String) : Store :=
  s.filter (fun e => !(e.1 == k))

def storeSet (s : Store) (k : String) (d : NonceData) : Store :=
  (k, d) :: storeDelete s k

/-- The base64 alphabet used by `Buffer.toString('base64')`. -/
def base64Chars : List Char :=
  "ABCDEFGHIJKLMNOPQRSTUVWXYZabcdefghijklmnopqrstuvwxyz0123456789+/".toList

def b64Char (n : Nat) : Char := base64Chars.getD n 'A'

/-- `Buffer.toString('base64')` on a byte list. -/
def base64Encode : List Nat → List Char
  | [] => []
  | [b1] => [b64Char (b1 / 4), b64Char (b1 % 4 * 16), '=', '=']
  | [b1, b2] =>
      [b64Char (b1 / 4), b64Char (b1 % 4 * 16 + b2 / 16), b64Char (b2 % 16 * 4), '=']
  | b1 :: b2 :: b3 :: rest =>
      b64Char (b1 / 4) :: b64Char (b1 % 4 * 16 + b2 / 16) ::
        b64Char (b2 % 16 * 4 + b3 / 64) :: b64Char (b3 % 64) :: base64Encode rest

def base64EncodeStr (l : List Nat) : String := String.mk (base64Encode l)

/-- Result of `NonceStore.generate`: the nonce plus the base64 key. -/
structure GenResult where
  nonce : String
  xorKey : String
deriving DecidableEq

/-- `NonceStore.generate(uid, file, isPremium)`; `nonce` and `xorKey`
stand for the freshly drawn `uuidv4()` and `crypto.randomBytes(8)`. -/
def generate (now : Nat) (s : Store) (uid : Nat) (file : String) (isPremium : Bool)
    (nonce : String) (xorKey : List Nat) : Store × GenResult :=
  (storeSet s nonce
      { uid := uid, file := file, isPremium := isPremium, xorKey := xorKey,
        createdAt := now },
    { nonce := nonce, xorKey := base64EncodeStr xorKey })

/-- `NonceStore.getKey(nonce)`: read-only peek at the secret. -/
def getKey (s : Store) (nonce : String) : Option String × Store :=
  match storeGet s nonce with
  | none => (none, s)
  | some data => (some (base64EncodeStr data.xorKey), s)

/-- `NonceStore.validate(nonce, uid)`: delete-then-check redemption. -/
def validate (now : Nat) (s : Store) (nonce : String) (uid : Nat) :
    Option NonceData × Store :=
  match storeGet s nonce with
  | none => (none, s)
  | some data =>
      let s' := storeDelete s nonce
      if data.uid ≠ uid then (none, s')
      else if NONCE_TTL < now - data.createdAt then (none, s')
      else (some data, s')

theorem storeGet_storeDelete_self (s : Store) (k : String) :
    storeGet (storeDelete s k) k = none := by
  induction s with
  | nil => rfl
  | cons e t ih =>
      by_cases h : e.1 == k
      · simp only [storeDelete, List.filter, h]
        exact ih
      · simp only [storeDelete, storeGet, List.filter, List.find?, h]
        exact ih

theorem validate_none_of_absent (now : Nat) (s : Store) (nonce : String) (uid : Nat)
    (h : storeGet s nonce = none) : (validate now s nonce uid).1 = none := by
  simp [validate, h]

/-- **C2.** `validate` returns `none` exactly for an unknown token, a
subject mismatch, or an elapsed time beyond the TTL; after any call the
token is gone from the store, so a second call for the same token
returns `none` whatever its arguments. -/
theorem validate_spec (now : Nat) (s : Store) (nonce : String) (uid : Nat) :
    ((validate now s nonce uid).1 = none ↔
        storeGet s nonce = none ∨
          ∃ d, storeGet s nonce = some d ∧
            (d.uid ≠ uid ∨ NONCE_TTL < now - d.createdAt)) ∧
      storeGet (validate now s nonce uid).2 nonce = none ∧
      ∀ now' uid', (validate now' (validate now s nonce uid).2 nonce uid').1 = none := by
  cases hs : storeGet s nonce with
  | none =>
      have h2 : (validate now s nonce uid).2 = s := by simp [validate, hs]
      refine ⟨by simp [validate, hs], by rw [h2]; exact hs, ?_⟩
      intro now' uid'
      rw [h2]
      exact validate_none_of_absent _ _ _ _ hs
  | some d =>
      have hdel : storeGet (storeDelete s nonce) nonce = none :=
        storeGet_storeDelete_self s nonce
      have h2 : (validate now s nonce uid).2 = storeDelete s nonce := by
        simp only [validate, hs]
        by_cases h1 : d.uid ≠ uid <;> by_cases httl : NONCE_TTL < now - d.createdAt <;>
          simp [h1, httl]
      refine ⟨?_, by rw [h2]; exact hdel, ?_⟩
      · simp only [validate, hs]
        by_cases h1 : d.uid ≠ uid
        · simp [h1, hs]
        · by_cases httl : NONCE_TTL < now - d.createdAt
          · simp [h1, httl, hs]
          · simp [h1, httl, hs]
      · intro now' uid'
        rw [h2]
        exact validate_none_of_absent _ _ _ _ hdel

/-- Witness for C2: a concrete token redeemed twice; the second call
returns `none`. -/
theorem validate_spec_witness :
    (validate 100
        (validate 100 [("t", ⟨0, "a.pdf", true, [1], 100⟩)] "t" 0).2 "t" 0).1 = none :=
  (validate_spec 100 [("t", ⟨0, "a.pdf", true, [1], 100⟩)] "t" 0).2.2 100 0

/-- **C7.** `getKey` leaves the store unchanged, returns the stored
secret (base64) for a known token and `none` for an unknown one, and a
subsequent `validate` behaves exactly as it would without the peek. -/
theorem getKey_spec (s : Store) (nonce : String) :
    (getKey s nonce).2 = s ∧
      (∀ d, storeGet s nonce = some d →
          (getKey s nonce).1 = some (base64EncodeStr d.xorKey)) ∧
      (storeGet s nonce = none → (getKey s nonce).1 = none) ∧
      ∀ now n' u', validate now (getKey s nonce).2 n' u' = validate now s n' u' := by
  have h2 : (getKey s nonce).2 = s := by
    unfold getKey
    cases storeGet s nonce <;> rfl
  refine ⟨h2, ?_, ?_, ?_⟩
  · intro d hd
    simp [getKey, hd]
  · intro hd
    simp [getKey, hd]
  · intro now n' u'
    rw [h2]

/-- Witness for C7: peeking a concrete token yields its base64 secret
and leaves the store intact. -/
theorem getKey_spec_witness :
    (getKey [("t", ⟨0, "a.pdf", true, [1], 100⟩)] "t").1 = some "AQ==" ∧
      (getKey [("t", ⟨0, "a.pdf", true, [1], 100⟩)] "t").2 =
        [("t", ⟨0, "a.pdf", true, [1], 100⟩)] := by
  refine ⟨?_, (getKey_spec [("t", ⟨0, "a.pdf", true, [1], 100⟩)] "t").1⟩
  have h := (getKey_spec [("t", ⟨0, "a.pdf", true, [1], 100⟩)] "t").2.1
      ⟨0, "a.pdf", true, [1], 100⟩ (by decide)
  rw [h]
  decide

/-! ## Path resolver (`PdfHandler.resolveFilePath`, src/lib/pdf-handler.js)

The Node `path` primitives (`basename`, `join`, `resolve`) are modelled
with posix semantics: `/`-separated segments, `.` and `..` resolution,
`resolve` made deterministic by passing the process working directory
`cwd` explicitly. -/

/-- Node `path.basename`: drop trailing separators, keep the last
segment. -/
def basename (p : String) : String :=
  let cs := p.toList
  let trimmed := (cs.reverse.dropWhile (fun c => c = '/')).reverse
  String.mk ((trimmed.reverse.takeWhile (fun c => c ≠ '/')).reverse)

/-- Does `pat` occur at the head of `l`? -/
def leadsWith : List Char → List Char → Bool
  | [], _ => true
  | _ :: _, [] => false
  | p :: ps, c :: cs => p == c && leadsWith ps cs

/-- Does `pat` occur anywhere in the character list? -/
def includesSub (pat : List Char) : List Char → Bool
  | [] => leadsWith pat []
  | c :: t => leadsWith pat (c :: t) || includesSub pat t

/-- JS `String.prototype.includes`. -/
def strIncludes (s pat : String) : Bool := includesSub pat.toList s.toList

/-- JS `String.prototype.startsWith`. -/
def strStarts (s pre : String) : Bool := leadsWith pre.toList s.toList

/-- Resolve `.`, `..` and empty segments, JS `path` style; `acc` is kept
reversed.  `allowAboveRoot` keeps leading `..` segments (relative
paths); for absolute paths `..` at the root is dropped. -/
def normSegs (segs : List String) (allowAboveRoot : Bool) : List String :=
  (segs.foldl (fun acc s =>
    if s = "" ∨ s = "." then acc
    else if s = ".." then
      match acc with
      | [] => if allowAboveRoot then [".."] else []
      | a :: rest => if a = ".." then s :: acc else rest
    else s :: acc) []).reverse

/-- Split a char list at `/`; `cur` holds the current segment reversed. -/
def splitSlashAux (cur : List Char) : List Char → List String
  | [] => [String.mk cur.reverse]
  | c :: t =>
      if c = '/' then String.mk cur.reverse :: splitSlashAux [] t
      else splitSlashAux (c :: cur) t

/-- Split a path into `/`-separated segments. -/
def splitSlash (p : String) : List String := splitSlashAux [] p.toList

/-- Node `path.normalize` (posix, trailing separator not preserved). -/
def normalizePath (p : String) : String :=
  let isAbs := strStarts p "/"
  let body := String.intercalate "/" (normSegs (splitSlash p) (!isAbs))
  if isAbs then "/" ++ body
  else if body = "" then "." else body

/-- Node `path.join` on two parts (posix). -/
def pathJoin (a b : String) : String :=
  let parts := [a, b].filter (fun q => q ≠ "")
  if parts.isEmpty then "." else normalizePath (String.intercalate "/" parts)

/-- Node `path.resolve` on one argument, with explicit `cwd`. -/
def pathResolve (cwd : String) (p : String) : String :=
  if strStarts p "/" then normalizePath p
  else normalizePath (cwd ++ "/" ++ p)

/-- The host configuration read through `nconf`. -/
structure Config where
  upload_path : Option String
  base_dir : String

/-- `nconf.get('upload_path') || path.join(nconf.get('base_dir'),
'public', 'uploads')` (`""` is falsy in JS). -/
def uploadPathOf (cfg : Config) : String :=
  match cfg.upload_path with
  | some q => if q = "" then pathJoin (pathJoin cfg.base_dir "public") "uploads" else q
  | none => pathJoin (pathJoin cfg.base_dir "public") "uploads"

/-- `PdfHandler.resolveFilePath(filename)`: basename sanitization, then
a canonical-prefix containment check against the uploads root. -/
def resolveFilePath (cfg : Config) (cwd : String) (filename : String) : Option String :=
  let safeName := basename filename
  if safeName = "" ∨ safeName ≠ filename ∨ strIncludes safeName ".." = true then none
  else
    let uploadPath := uploadPathOf cfg
    let filePath := pathJoin (pathJoin uploadPath "files") safeName
    let resolvedPath := pathResolve cwd filePath
    let resolvedUploadDir := pathResolve cwd (pathJoin uploadPath "files")
    if strStarts resolvedPath resolvedUploadDir = true then some filePath else none

/-- **C4.** Any filename whose basename differs from the raw input (a
separator or traversal sequence was present) or that contains `..` is
rejected by the resolver. -/
theorem resolveFilePath_rejects (cfg : Config) (cwd : String) (f : String)
    (h : basename f ≠ f ∨ strIncludes f ".." = true) :
    resolveFilePath cfg cwd f = none := by
  unfold resolveFilePath
  rcases h with hne | hin
  · rw [if_pos (Or.inr (Or.inl hne))]
  · by_cases hb : basename f = f
    · rw [if_pos (Or.inr (Or.inr (by rw [hb]; exact hin)))]
    · rw [if_pos (Or.inr (Or.inl hb))]

/-- Witness for C4: a concrete traversal attempt is rejected. -/
theorem resolveFilePath_rejects_witness :
    resolveFilePath ⟨none, "/app"⟩ "/srv" "../x" = none :=
  resolveFilePath_rejects ⟨none, "/app"⟩ "/srv" "../x" (Or.inl (by decide))

/-- **C5.** Every accepted filename yields a path whose canonical form
lies under the canonical uploads-files root (prefix match). -/
theorem resolveFilePath_within_root (cfg : Config) (cwd : String) (f p : String)
    (h : resolveFilePath cfg cwd f = some p) :
    strStarts (pathResolve cwd p)
      (pathResolve cwd (pathJoin (uploadPathOf cfg) "files")) = true := by
  rw [resolveFilePath] at h
  dsimp only at h
  split at h
  · cases h
  · split at h
    · cases h
      assumption
    · cases h

/-- Witness for C5: a concrete accepted filename lands under the root. -/
theorem resolveFilePath_within_root_witness :
    strStarts (pathResolve "/srv" "/data/up/files/doc.pdf")
      (pathResolve "/srv" (pathJoin (uploadPathOf ⟨some "/data/up", "/app"⟩) "files")) =
      true :=
  resolveFilePath_within_root ⟨some "/data/up", "/app"⟩ "/srv" "doc.pdf"
    "/data/up/files/doc.pdf" (by decide)

/-! ## Document store (src/lib/pdf-handler.js)

`fsFiles` models the filesystem (`fs.existsSync` + `fs.promises.readFile`
under the resolved path); `derive` models the external pdf-lib
first-page reconstruction (`PDFDocument.load / copyPages / save`).  The
trailing `Bool` of `getSinglePagePdf` is the instrumentation seam of the
spec: whether the source file was read on this call. -/

inductive PdfError
  | invalidFilename
  | fileNotFound
deriving DecidableEq

/-- One entry of `singlePageCache`. -/
structure CacheEntry where
  buffer : List Nat
  createdAt : Nat
deriving DecidableEq

/-- The derivative cache `Map`. -/
abbrev SPCache := List (String × CacheEntry)

def CACHE_TTL : Nat := 60 * 60 * 1000

def cacheGet (c : SPCache) (k : String) : Option CacheEntry :=
  (c.find? (fun e => e.1 == k)).map (fun e => e.2)

def cacheSet (c : SPCache) (k : String) (e : CacheEntry) : SPCache :=
  (k, e) :: c.filter (fun x => !(x.1 == k))

/-- `PdfHandler.getFullPdf(filename)`. -/
def getFullPdf (cfg : Config) (cwd : String) (fsFiles : String → Option (List Nat))
    (filename : String) : Except PdfError (List Nat) :=
  match resolveFilePath cfg cwd filename with
  | none => .error .invalidFilename
  | some fp =>
      match fsFiles fp with
      | none => .error .fileNotFound
      | some b => .ok b

/-- The cache lookup at the head of `getSinglePagePdf`: a buffer is
returned only if present and younger than `CACHE_TTL`. -/
def spFresh (now : Nat) (cache : SPCache) (filename : String) : Option (List Nat) :=
  match cacheGet cache filename with
  | some e => if now - e.createdAt < CACHE_TTL then some e.buffer else none
  | none => none

/-- `PdfHandler.getSinglePagePdf(filename)`: cache hit, else resolve,
read, derive the first page, store with the current timestamp. -/
def getSinglePagePdf (cfg : Config) (cwd : String) (fsFiles : String → Option (List Nat))
    (derive : List Nat → List Nat) (now : Nat) (filename : String) (cache : SPCache) :
    Except PdfError (List Nat) × SPCache × Bool :=
  match spFresh now cache filename with
  | some b => (.ok b, cache, false)
  | none =>
      match resolveFilePath cfg cwd filename with
      | none => (.error .invalidFilename, cache, false)
      | some fp =>
          match fsFiles fp with
          | none => (.error .fileNotFound, cache, false)
          | some bytes =>
              let buffer := derive bytes
              (.ok buffer, cacheSet cache filename ⟨buffer, now⟩, true)

theorem cacheGet_cacheSet_self (c : SPCache) (k : String) (e : CacheEntry) :
    cacheGet (cacheSet c k e) k = some e := by
  simp [cacheGet, cacheSet, List.find?]

theorem spFresh_eq_some (now : Nat) (cache : SPCache) (f : String) (b : List Nat)
    (h : spFresh now cache f = some b) :
    ∃ e, cacheGet cache f = some e ∧ e.buffer = b ∧ now - e.createdAt < CACHE_TTL := by
  rw [spFresh] at h
  cases hg : cacheGet cache f with
  | none =>
      rw [hg] at h
      cases h
  | some e =>
      rw [hg] at h
      by_cases ht : now - e.createdAt < CACHE_TTL
      · simp only [ht, if_true, Option.some.injEq] at h
        exact ⟨e, rfl, h, ht⟩
      · simp [ht] at h

theorem spFresh_of (now : Nat) (cache : SPCache) (f : String) (e : CacheEntry)
    (hg : cacheGet cache f = some e) (ht : now - e.createdAt < CACHE_TTL) :
    spFresh now cache f = some e.buffer := by
  simp [spFresh, hg, ht]

/-- **C8.** After a successful `getSinglePagePdf` call, a second call
within the freshness window returns the byte-identical buffer, leaves
the cache untouched, and does not read (or re-derive) the source file. -/
theorem getSinglePagePdf_cache (cfg : Config) (cwd : String)
    (fsFiles : String → Option (List Nat)) (derive : List Nat → List Nat)
    (now1 now2 : Nat) (f : String) (cache : SPCache) (b : List Nat)
    (c1 : SPCache) (r1 : Bool)
    (h1 : getSinglePagePdf cfg cwd fsFiles derive now1 f cache = (.ok b, c1, r1))
    (hfresh : ∀ e, cacheGet c1 f = some e → now2 - e.createdAt < CACHE_TTL) :
    getSinglePagePdf cfg cwd fsFiles derive now2 f c1 = (.ok b, c1, false) := by
  rw [getSinglePagePdf] at h1
  split at h1
  · rename_i b0 hc2
    simp only [Prod.mk.injEq, Except.ok.injEq] at h1
    obtain ⟨rfl, rfl, rfl⟩ := h1
    obtain ⟨e, hg, hbe, ht⟩ := spFresh_eq_some _ _ _ _ hc2
    rw [getSinglePagePdf, spFresh_of now2 _ f e hg (hfresh e hg), hbe]
  · split at h1
    · simp at h1
    · split at h1
      · simp at h1
      · rename_i fp hr bytes hf
        simp only [Prod.mk.injEq, Except.ok.injEq] at h1
        obtain ⟨rfl, rfl, rfl⟩ := h1
        rw [getSinglePagePdf,
          spFresh_of now2 _ f ⟨derive bytes, now1⟩ (cacheGet_cacheSet_self _ _ _)
            (hfresh _ (cacheGet_cacheSet_self _ _ _))]

/-- Witness for C8: a concrete second call is served from the cache,
without reading the file. -/
theorem getSinglePagePdf_cache_witness :
    getSinglePagePdf ⟨some "/u", "/a"⟩ "/"
        (fun p => if p = "/u/files/d.pdf" then some [9, 9] else none)
        (fun b => b ++ [1]) 5 "d.pdf" [("d.pdf", ⟨[9, 9, 1], 0⟩)] =
      (.ok [9, 9, 1], [("d.pdf", ⟨[9, 9, 1], 0⟩)], false) := by
  refine getSinglePagePdf_cache ⟨some "/u", "/a"⟩ "/"
      (fun p => if p = "/u/files/d.pdf" then some [9, 9] else none)
      (fun b => b ++ [1]) 0 5 "d.pdf" [] [9, 9, 1] _ true rfl ?_
  intro e he
  have h' : (⟨[9, 9, 1], 0⟩ : CacheEntry) = e := Option.some.inj he
  subst h'
  decide

/-! ## Access gateway (`Controllers.servePdfBinary`, src/lib/controllers.js)
and the viewer issuing route (library.js `plugin.init`)

The HTTP response is `status` plus either a JSON error body or the
obfuscated binary payload.  `err.message === 'File not found'` maps to
404; every other thrown error (including `'Invalid filename'` from the
path resolver) falls into the generic 500 branch. -/

inductive RespBody
  | json (s : String)
  | binary (b : List Nat)
deriving DecidableEq

structure Response where
  status : Nat
  body : RespBody
deriving DecidableEq

/-- `Controllers.servePdfBinary(req, res)`. -/
def servePdfBinary (cfg : Config) (cwd : String) (fsFiles : String → Option (List Nat))
    (derive : List Nat → List Nat) (now : Nat) (nonceQ : Option String) (uid : Nat)
    (st : Store) (cache : SPCache) : Response × Store × SPCache :=
  match nonceQ with
  | none => (⟨400, .json "Missing nonce"⟩, st, cache)
  | some nonce =>
      if nonce = "" then (⟨400, .json "Missing nonce"⟩, st, cache)
      else
        match validate now st nonce uid with
        | (none, st') => (⟨403, .json "Invalid or expired nonce"⟩, st', cache)
        | (some data, st') =>
            match
              (if data.isPremium then (getFullPdf cfg cwd fsFiles data.file, cache, false)
                else getSinglePagePdf cfg cwd fsFiles derive now data.file cache) with
            | (.ok b, c', _) =>
                (⟨200, .binary (partialXorEncode b data.xorKey)⟩, st', c')
            | (.error .fileNotFound, c', _) => (⟨404, .json "PDF not found"⟩, st', c')
            | (.error .invalidFilename, c', _) => (⟨500, .json "Internal error"⟩, st', c')

/-- Counterexample for C3: a redeemable token for `"a..b.pdf"` — a name
the viewer route itself would accept, but the path resolver rejects —
is served with status 500, not a 400/403 client error. -/
theorem servePdfBinary_invalidName_counterexample :
    resolveFilePath ⟨some "/u", "/a"⟩ "/" "a..b.pdf" = none ∧
      (servePdfBinary ⟨some "/u", "/a"⟩ "/" (fun _ => none) (fun b => b) 0 (some "n1") 0
          [("n1", ⟨0, "a..b.pdf", true, [1], 0⟩)] []).1.status = 500 ∧
      ¬((servePdfBinary ⟨some "/u", "/a"⟩ "/" (fun _ => none) (fun b => b) 0 (some "n1") 0
            [("n1", ⟨0, "a..b.pdf", true, [1], 0⟩)] []).1.status = 400 ∨
        (servePdfBinary ⟨some "/u", "/a"⟩ "/" (fun _ => none) (fun b => b) 0 (some "n1") 0
            [("n1", ⟨0, "a..b.pdf", true, [1], 0⟩)] []).1.status = 403) := by
  decide

/-- **C3 (amended).** When the redeemed record names a filename the path
resolver rejects (and no derivative is cached under that name), the
gateway answers with the generic 500 `"Internal error"` response — a
server error carrying no internal detail, not a 400/403 client error. -/
theorem servePdfBinary_invalidName_500 (cfg : Config) (cwd : String)
    (fsFiles : String → Option (List Nat)) (derive : List Nat → List Nat)
    (now : Nat) (nonce : String) (uid : Nat) (st : Store) (cache : SPCache)
    (data : NonceData) (st' : Store)
    (hn : nonce ≠ "")
    (hv : validate now st nonce uid = (some data, st'))
    (hr : resolveFilePath cfg cwd data.file = none)
    (hc : cacheGet cache data.file = none) :
    servePdfBinary cfg cwd fsFiles derive now (some nonce) uid st cache =
      (⟨500, .json "Internal error"⟩, st', cache) := by
  rw [servePdfBinary]
  rw [if_neg hn, hv]
  cases hp : data.isPremium with
  | true =>
      have hfull : getFullPdf cfg cwd fsFiles data.file = .error .invalidFilename := by
        rw [getFullPdf, hr]
      simp only [hp, if_true, hfull]
  | false =>
      have hsp : getSinglePagePdf cfg cwd fsFiles derive now data.file cache =
          (.error .invalidFilename, cache, false) := by
        rw [getSinglePagePdf]
        have hfr : spFresh now cache data.file = none := by
          rw [spFresh, hc]
        rw [hfr, hr]
      simp only [hp, if_false, Bool.false_eq_true, hsp]

/-- Witness for the amended C3 at the concrete counterexample state. -/
theorem servePdfBinary_invalidName_500_witness :
    servePdfBinary ⟨some "/u", "/a"⟩ "/" (fun _ => none) (fun b => b) 0 (some "n1") 0
        [("n1", ⟨0, "a..b.pdf", true, [1], 0⟩)] [] =
      (⟨500, .json "Internal error"⟩, [], []) :=
  servePdfBinary_invalidName_500 ⟨some "/u", "/a"⟩ "/" (fun _ => none) (fun b => b) 0
    "n1" 0 [("n1", ⟨0, "a..b.pdf", true, [1], 0⟩)] [] ⟨0, "a..b.pdf", true, [1], 0⟩ []
    (by decide) (by decide) (by decide) (by decide)

/-- JS `String.prototype.endsWith`. -/
def endsWithStr (s suf : String) : Bool := leadsWith suf.toList.reverse s.toList.reverse

/-- JS `String.prototype.toLowerCase` (ASCII range). -/
def lowerStr (s : String) : String := String.mk (s.toList.map Char.toLower)

/-- The `/plugins/pdf-secure/viewer` route handler (library.js): checks
the `file` query parameter, sanitizes to a basename ending in `.pdf`,
requires the cached viewer template, then issues a nonce with
`isPremium` hardcoded to `true`.  Returns the updated store and the
generated nonce data, or `none` when the route answers an error. -/
def viewerRoute (now : Nat) (st : Store) (file : Option String) (uid : Nat)
    (viewerCached : Bool) (nonce : String) (xorKey : List Nat) :
    Option (Store × GenResult) :=
  match file with
  | none => none
  | some f =>
      if f = "" then none
      else
        let safeName := basename f
        if safeName = "" ∨ ¬(endsWithStr (lowerStr safeName) ".pdf" = true) then none
        else if ¬(viewerCached = true) then none
        else some (generate now st uid safeName true nonce xorKey)

theorem storeGet_storeSet_self (s : Store) (k : String) (d : NonceData) :
    storeGet (storeSet s k d) k = some d := by
  simp [storeGet, storeSet, List.find?]

theorem validate_fst_some (now : Nat) (s : Store) (n : String) (u : Nat) (d : NonceData)
    (h : (validate now s n u).1 = some d) : storeGet s n = some d := by
  rw [validate] at h
  cases hg : storeGet s n with
  | none =>
      rw [hg] at h
      cases h
  | some d0 =>
      rw [hg] at h
      by_cases h1 : d0.uid ≠ u
      · simp [h1] at h
      · by_cases h2 : NONCE_TTL < now - d0.createdAt
        · simp [h1, h2] at h
        · simp only [h1, h2, if_false, if_true] at h
          simp at h
          rw [h]

/-- **C9.** Every token issued through the viewer route carries the
entitlement flag `true` (the call site hardcodes `isPremium = true`),
so any successful redemption of such a token yields a record whose
`isPremium` is `true` — the gateway's restricted (first-page) branch is
never selected for these tokens. -/
theorem viewerRoute_entitled (now : Nat) (st : Store) (file : Option String) (uid : Nat)
    (vc : Bool) (nonce : String) (xorKey : List Nat) (st' : Store) (gen : GenResult)
    (h : viewerRoute now st file uid vc nonce xorKey = some (st', gen)) :
    (storeGet st' gen.nonce).map NonceData.isPremium = some true ∧
      ∀ now2 u' d, (validate now2 st' gen.nonce u').1 = some d → d.isPremium = true := by
  rw [viewerRoute.eq_def] at h
  split at h
  · cases h
  · rename_i f
    by_cases h0 : f = ""
    · rw [if_pos h0] at h
      cases h
    · rw [if_neg h0] at h
      dsimp only at h
      by_cases h1 : basename f = "" ∨ ¬(endsWithStr (lowerStr (basename f)) ".pdf" = true)
      · rw [if_pos h1] at h
        cases h
      · rw [if_neg h1] at h
        by_cases h2 : ¬(vc = true)
        · rw [if_pos h2] at h
          cases h
        · rw [if_neg h2] at h
          simp only [generate, Option.some.injEq, Prod.mk.injEq] at h
          obtain ⟨rfl, rfl⟩ := h
          have hget : storeGet (storeSet st nonce
              ⟨uid, basename f, true, xorKey, now⟩) nonce = some
              ⟨uid, basename f, true, xorKey, now⟩ :=
            storeGet_storeSet_self _ _ _
          refine ⟨by rw [hget]; rfl, ?_⟩
          intro now2 u' d hd
          have := validate_fst_some _ _ _ _ _ hd
          rw [hget] at this
          have hd' : (⟨uid, basename f, true, xorKey, now⟩ : NonceData) = d :=
            Option.some.inj this
          rw [← hd']

/-- Witness for C9: a concrete viewer-route issuance stores an entitled
record. -/
theorem viewerRoute_entitled_witness :
    (storeGet [("n", ⟨7, "Doc.PDF", true, [1], 0⟩)] "n").map NonceData.isPremium =
      some true :=
  (viewerRoute_entitled 0 [] (some "Doc.PDF") 7 true "n" [1]
    [("n", ⟨7, "Doc.PDF", true, [1], 0⟩)] ⟨"n", "AQ=="⟩ (by decide)).1

end SecurePdf
